import Mathlib

/-!
Verification development for the QueryParamsEditor repository
(src/query-param-editor.js, a custom element `query-params-editor`).

The JavaScript component is embedded shallowly:

* JS strings are modelled as Lean `String` (sequences of Unicode scalar
  values).
* The platform `URLSearchParams` machinery (the
  application/x-www-form-urlencoded serializer and parser of the WHATWG URL
  standard) is modelled at the byte level: strings are encoded to UTF-8
  bytes (`List Nat`, each < 256), percent-encoded/decoded and re-decoded.
* JS runtime values that flow through `JSON.parse`, `setParams` and property
  access are modelled by the inductive type `JsValue`; thrown exceptions are
  modelled by an `Option String` error component in each operation's result.
* The widget state is the ordered row list, the `target` attribute and the
  `_initialized` flag; the host document is a list of mirror elements.
-/

/-- Characters treated as whitespace by JavaScript `String.prototype.trim`
(ECMAScript WhiteSpace and LineTerminator code points). -/
def jsWS (c : Char) : Bool :=
  c.toNat == 0x9 || c.toNat == 0xA || c.toNat == 0xB || c.toNat == 0xC ||
  c.toNat == 0xD || c.toNat == 0x20 || c.toNat == 0xA0 || c.toNat == 0x1680 ||
  (0x2000 ≤ c.toNat && c.toNat ≤ 0x200A) || c.toNat == 0x2028 ||
  c.toNat == 0x2029 || c.toNat == 0x202F || c.toNat == 0x205F ||
  c.toNat == 0x3000 || c.toNat == 0xFEFF

/-- Remove leading and trailing JS whitespace from a character list. -/
def trimChars (l : List Char) : List Char :=
  (((l.dropWhile jsWS).reverse).dropWhile jsWS).reverse

/-- JavaScript `String.prototype.trim`. -/
def jsTrim (s : String) : String := ⟨trimChars s.data⟩

/-- UTF-8 encoding of a single Unicode scalar value, as a byte list. -/
def utf8EncodeChar (c : Char) : List Nat :=
  let n := c.toNat
  if n < 0x80 then [n]
  else if n < 0x800 then [0xC0 + n / 64, 0x80 + n % 64]
  else if n < 0x10000 then
    [0xE0 + n / 4096, 0x80 + (n / 64) % 64, 0x80 + n % 64]
  else
    [0xF0 + n / 262144, 0x80 + (n / 4096) % 64, 0x80 + (n / 64) % 64,
     0x80 + n % 64]

/-- UTF-8 encoding of a character list. -/
def utf8List : List Char → List Nat
  | [] => []
  | c :: rest => utf8EncodeChar c ++ utf8List rest

/-- The replacement character U+FFFD emitted for invalid byte sequences. -/
def replChar : Char := '�'

/-- Turn a code point into a `Char`, with U+FFFD for invalid values. -/
def charOfCode (n : Nat) : Char :=
  if n.isValidChar then Char.ofNat n else replChar

/-- Whether a byte is a UTF-8 continuation byte (10xxxxxx). -/
def contByte (b : Nat) : Bool := 0x80 ≤ b && b < 0xC0

/-- Payload of a UTF-8 continuation byte. -/
def contVal (b : Nat) : Nat := b - 0x80

/-- Byte at position `i` of a byte list (0 when past the end). -/
def byteAt (l : List Nat) (i : Nat) : Nat :=
  match l.drop i with
  | b :: _ => b
  | [] => 0

/-- Whether position `i` of a byte list holds a continuation byte. -/
def contAt (l : List Nat) (i : Nat) : Bool :=
  match l.drop i with
  | b :: _ => contByte b
  | [] => false

/-- UTF-8 decoding of a byte list (lossy: invalid sequences give U+FFFD),
modelling the platform's "UTF-8 decode without BOM". -/
def utf8Decode : List Nat → List Char
  | [] => []
  | b :: rest =>
    if b < 0x80 then charOfCode b :: utf8Decode rest
    else if 0xC2 ≤ b ∧ b < 0xE0 ∧ contAt rest 0 then
      charOfCode ((b - 0xC0) * 64 + contVal (byteAt rest 0)) ::
        utf8Decode (rest.drop 1)
    else if 0xE0 ≤ b ∧ b < 0xF0 ∧ contAt rest 0 ∧ contAt rest 1 then
      (let v := (b - 0xE0) * 4096 + contVal (byteAt rest 0) * 64 +
                contVal (byteAt rest 1)
       if 0x800 ≤ v then charOfCode v else replChar) ::
        utf8Decode (rest.drop 2)
    else if 0xF0 ≤ b ∧ b < 0xF5 ∧ contAt rest 0 ∧ contAt rest 1 ∧
            contAt rest 2 then
      (let v := (b - 0xF0) * 262144 + contVal (byteAt rest 0) * 4096 +
                contVal (byteAt rest 1) * 64 + contVal (byteAt rest 2)
       if 0x10000 ≤ v then charOfCode v else replChar) ::
        utf8Decode (rest.drop 3)
    else replChar :: utf8Decode rest
termination_by bs => bs.length
decreasing_by all_goals simp [List.length_drop] <;> omega

/-- Bytes serialized verbatim by the urlencoded serializer:
ASCII alphanumerics and `*`, `-`, `.`, `_`. -/
def urlencodedKeep (b : Nat) : Bool :=
  (0x30 ≤ b && b ≤ 0x39) || (0x41 ≤ b && b ≤ 0x5A) || (0x61 ≤ b && b ≤ 0x7A) ||
  b == 0x2A || b == 0x2D || b == 0x2E || b == 0x5F

/-- Uppercase hexadecimal digit for a value below 16, as an ASCII byte. -/
def hexDigitByte (n : Nat) : Nat := if n < 10 then 0x30 + n else 0x37 + n

/-- Percent-encoding of a single byte per the urlencoded serializer:
space becomes `+`, safe bytes stay, everything else becomes `%XX`. -/
def percentEncodeByte (b : Nat) : List Nat :=
  if b = 0x20 then [0x2B]
  else if urlencodedKeep b then [b]
  else [0x25, hexDigitByte (b / 16), hexDigitByte (b % 16)]

/-- Percent-encode every byte of a byte list. -/
def encodeBytes : List Nat → List Nat
  | [] => []
  | b :: rest => percentEncodeByte b ++ encodeBytes rest

/-- Full urlencoded serialization of one JS string: UTF-8 bytes, each
percent-encoded. -/
def serializeStr (s : String) : List Nat := encodeBytes (utf8List s.data)

/-- Whether a byte is an ASCII hex digit (0-9, A-F, a-f). -/
def isHexByte (b : Nat) : Bool :=
  (0x30 ≤ b && b ≤ 0x39) || (0x41 ≤ b && b ≤ 0x46) || (0x61 ≤ b && b ≤ 0x66)

/-- Numeric value of an ASCII hex digit byte. -/
def hexVal (b : Nat) : Nat :=
  if b ≤ 0x39 then b - 0x30 else if b ≤ 0x46 then b - 0x41 + 10
  else b - 0x61 + 10

/-- Percent-decoding on bytes: `%` followed by two hex digits becomes the
denoted byte, everything else passes through. -/
def percentDecode : List Nat → List Nat
  | [] => []
  | b :: rest =>
    if b = 0x25 ∧ 2 ≤ rest.length ∧ isHexByte (byteAt rest 0) ∧
       isHexByte (byteAt rest 1) then
      (hexVal (byteAt rest 0) * 16 + hexVal (byteAt rest 1)) ::
        percentDecode (rest.drop 2)
    else b :: percentDecode rest
termination_by bs => bs.length
decreasing_by all_goals simp [List.length_drop] <;> omega

/-- Decode one name or value of a urlencoded pair: `+` to space,
percent-decode, UTF-8 decode. -/
def parsePart (bs : List Nat) : String :=
  ⟨utf8Decode (percentDecode (bs.map fun b => if b = 0x2B then 0x20 else b))⟩

/-- Split a byte list on a separator byte (no separator gives one piece;
`n` separators give `n + 1` pieces, empty pieces included). -/
def splitOnByte (sep : Nat) : List Nat → List (List Nat)
  | [] => [[]]
  | b :: rest =>
    match splitOnByte sep rest with
    | [] => [[]]
    | s :: ss => if b = sep then [] :: s :: ss else (b :: s) :: ss

/-- Split a urlencoded pair at the first `=` byte; a pair without `=` is all
name and has the empty value. -/
def splitFirstEq : List Nat → List Nat × List Nat
  | [] => ([], [])
  | b :: rest =>
    if b = 0x3D then ([], rest)
    else
      let nv := splitFirstEq rest
      (b :: nv.1, nv.2)

/-- One key/value record, both a widget table row and a `{key, value}`
object produced by `parseUrlToData`. -/
structure Row where
  key : String
  value : String
deriving DecidableEq, Repr

/-- The urlencoded parser of the WHATWG URL standard: split the byte input
on `&`, skip empty pieces, split each piece at its first `=`, decode both
halves. -/
def urlencodedParse (bs : List Nat) : List Row :=
  (splitOnByte 0x26 bs).filterMap fun seg =>
    if seg.isEmpty then none
    else
      let nv := splitFirstEq seg
      some ⟨parsePart nv.1, parsePart nv.2⟩

/-- `new URLSearchParams(init)` for a string `init`: a single leading `?` is
removed, then the UTF-8 bytes of the remainder are parsed. -/
def newURLSearchParams (init : String) : List Row :=
  let s := if init.data.head? = some '?' then init.data.tail else init.data
  urlencodedParse (utf8List s)

/-- `URLSearchParams.prototype.set`: if any pair has this name, the first
such pair gets the new value and all later pairs with the name are removed;
otherwise the pair is appended. -/
def uspSet : List Row → String → String → List Row
  | [], k, v => [⟨k, v⟩]
  | r :: rest, k, v =>
    if r.key = k then ⟨k, v⟩ :: rest.filter (fun p => p.key ≠ k)
    else r :: uspSet rest k v

/-- One iteration of the `_getSearchParams()` loop: trim both cells and
`set` the pair when the trimmed key is nonempty (JS string truthiness). -/
def uspStep (usp : List Row) (r : Row) : List Row :=
  let k := jsTrim r.key
  let v := jsTrim r.value
  if k ≠ "" then uspSet usp k v else usp

/-- `_getSearchParams()` of the component: fold the loop body over the rows
starting from a fresh `URLSearchParams`. -/
def getSearchParamsOf (rows : List Row) : List Row :=
  rows.foldl uspStep []

/-- `Object.fromEntries`: later pairs with the same key overwrite the value
stored at the key's first position, matching JS object insertion order. -/
def fromEntries (l : List Row) : List Row :=
  l.foldl (fun acc r => uspSet acc r.key r.value) []

/-- `getParams()` of the component: `Object.fromEntries(this._getSearchParams())`. -/
def getParams (rows : List Row) : List Row :=
  fromEntries (getSearchParamsOf rows)

/-- Serialized bytes of one pair: `enc(key) = enc(value)`. -/
def pairBytes (r : Row) : List Nat :=
  serializeStr r.key ++ 0x3D :: serializeStr r.value

/-- Serialized bytes of a pair list, `&`-joined. -/
def qsBytes : List Row → List Nat
  | [] => []
  | [r] => pairBytes r
  | r :: rest => pairBytes r ++ 0x26 :: qsBytes rest

/-- `URLSearchParams.prototype.toString`: the urlencoded serialization.
Its output is pure ASCII, so the JS string is the bytes read as characters. -/
def uspToString (l : List Row) : String :=
  ⟨(qsBytes l).map Char.ofNat⟩

/-- The derived query string of the component,
`this._getSearchParams().toString()`. -/
def derivedQuery (rows : List Row) : String :=
  uspToString (getSearchParamsOf rows)

/-- Escape one character for `JSON.stringify` string output. -/
def jsonEscapeChar (c : Char) : List Char :=
  if c = '"' then ['\\', '"']
  else if c = '\\' then ['\\', '\\']
  else if c = '\x08' then ['\\', 'b']
  else if c = '\x09' then ['\\', 't']
  else if c = '\x0A' then ['\\', 'n']
  else if c = '\x0C' then ['\\', 'f']
  else if c = '\x0D' then ['\\', 'r']
  else if c.toNat < 0x20 then
    ['\\', 'u', '0', '0', Char.ofNat (hexDigitByte (c.toNat / 16)),
     Char.ofNat (hexDigitByte (c.toNat % 16))]
  else [c]

/-- `JSON.stringify` of a JS string (lowercase hex never occurs: control
characters use `\u00XX` with the same uppercase digits as `hexDigitByte`). -/
def jsonStringifyStr (s : String) : String :=
  ⟨'"' :: (s.data.foldr (fun c acc => jsonEscapeChar c ++ acc) ['"'])⟩

/-- `JSON.stringify` of one `{key, value}` record. -/
def jsonStringifyRow (r : Row) : String :=
  "\x7b\"key\":" ++ jsonStringifyStr r.key ++ ",\"value\":" ++
    jsonStringifyStr r.value ++ "\x7d"

/-- `JSON.stringify` of an array of `{key, value}` records. -/
def jsonStringifyRows (l : List Row) : String :=
  "[" ++ String.intercalate "," (l.map jsonStringifyRow) ++ "]"

/-- Result type of `parseUrlToData`: the function returns either a JS string
(the JSON text) or an array of `{key, value}` records, depending on the
`asArray` flag. -/
inductive JsStrOrRows where
  | str (s : String)
  | rows (l : List Row)
deriving DecidableEq, Repr

/-- `QueryParamsEditor.parseUrlToData(input, asArray)`: extract the `?...`
part (or prepend `?` when the input has `=` but no `?`); with neither `?`
nor `=` return the string literal `[]`; otherwise parse with
`URLSearchParams` and return the records as an array or as JSON text. -/
def parseUrlToData (input : String) (asArray : Bool) : JsStrOrRows :=
  if input.data.contains '?' then
    let search : String := ⟨input.data.dropWhile (fun c => c ≠ '?')⟩
    let arr := newURLSearchParams search
    if asArray then .rows arr else .str (jsonStringifyRows arr)
  else if input.data.contains '=' then
    let search : String := ⟨'?' :: input.data⟩
    let arr := newURLSearchParams search
    if asArray then .rows arr else .str (jsonStringifyRows arr)
  else .str "[]"


/-- JS runtime values as far as the component observes them: the JSON value
universe plus `undefined`. Numbers are modelled as integers (the component
never does arithmetic on them; only truthiness and string conversion are
used). -/
inductive JsValue where
  | jundef : JsValue
  | jnull : JsValue
  | jbool : Bool → JsValue
  | jnum : Int → JsValue
  | jstr : String → JsValue
  | jarr : List JsValue → JsValue
  | jobj : List (String × JsValue) → JsValue

/-- JS truthiness of a value (`if (x)`). -/
def jsTruthy : JsValue → Bool
  | .jundef => false
  | .jnull => false
  | .jbool b => b
  | .jnum n => decide (n ≠ 0)
  | .jstr s => decide (s ≠ "")
  | .jarr _ => true
  | .jobj _ => true

/-- Whether an element is nullish (`null` or `undefined`), the values on
which property access and destructuring throw a TypeError. -/
def jsNullish : JsValue → Bool
  | .jnull => true
  | .jundef => true
  | _ => false

/-- `Array.isArray`. -/
def isArr : JsValue → Bool
  | .jarr _ => true
  | _ => false

/-- JS property access `v[p]`: throws on nullish values, looks fields up on
objects, exposes `length` on arrays and strings, and yields `undefined`
elsewhere (numeric indices are not needed by the component). -/
def jsGetProp (v : JsValue) (p : String) : Except String JsValue :=
  match v with
  | .jnull => .error "Cannot read properties of null or undefined"
  | .jundef => .error "Cannot read properties of null or undefined"
  | .jobj fields => .ok ((fields.lookup p).getD .jundef)
  | .jarr xs => if p = "length" then .ok (.jnum xs.length) else .ok .jundef
  | .jstr s => if p = "length" then .ok (.jnum s.length) else .ok .jundef
  | _ => .ok .jundef

mutual

/-- JS ToString as used by template literals: `String(v)`. Arrays join their
elements with commas (nullish elements become empty). -/
def jsToString : JsValue → String
  | .jundef => "undefined"
  | .jnull => "null"
  | .jbool b => cond b "true" "false"
  | .jnum n => toString n
  | .jstr s => s
  | .jarr xs => jsJoin xs
  | .jobj _ => "[object Object]"

/-- `Array.prototype.join` with the default comma separator. -/
def jsJoin : List JsValue → String
  | [] => ""
  | [x] => if jsNullish x then "" else jsToString x
  | x :: rest =>
    (if jsNullish x then "" else jsToString x) ++ "," ++ jsJoin rest

end

/-- An element of the host document that the widget may mirror into:
whether a given selector matches it, whether it is an input-like control
(`HTMLInputElement` / `HTMLTextAreaElement`), its `value` and its
`textContent`. -/
structure Elem where
  selMatch : String → Bool
  isInput : Bool
  value : String
  textContent : String

/-- The state the component keeps: its `_initialized` flag, the ordered row
list held in the table body, and the `target` attribute (absent or its
string value). -/
structure Widget where
  initialized : Bool
  rows : List Row
  target : Option String
deriving DecidableEq, Repr

/-- Recognize a character reference after a `&` in an HTML attribute value.
This is a partial model: it covers `amp;`, `lt;`, `gt;` and `quot;`, while
the real attribute parser decodes the full named, numeric, and legacy
without-semicolon reference set. The verbatim-storage theorem therefore
excludes every ampersand from its hypothesis, so this function is never
load-bearing there; anything unrecognized keeps the `&` as literal text.
Returns the decoded character and the unconsumed remainder. -/
def refTail (l : List Char) : Char × List Char :=
  if l.take 4 = ['a', 'm', 'p', ';'] then ('&', l.drop 4)
  else if l.take 3 = ['l', 't', ';'] then ('<', l.drop 3)
  else if l.take 3 = ['g', 't', ';'] then ('>', l.drop 3)
  else if l.take 5 = ['q', 'u', 'o', 't', ';'] then ('"', l.drop 5)
  else ('&', l)

/-- Decode the character references of an HTML attribute value (via
`refTail`), replacing NUL by U+FFFD as the tokenizer does. Modelled from
the platform HTML parser. -/
def decodeAttrChars : List Char → List Char
  | [] => []
  | c :: rest =>
    if c = '&' then
      let t := refTail rest
      t.1 :: decodeAttrChars t.2
    else if c = '\x00' then replChar :: decodeAttrChars rest
    else c :: decodeAttrChars rest
termination_by l => l.length
decreasing_by
  · have hle : (refTail rest).2.length ≤ rest.length := by
      unfold refTail
      split_ifs <;> simp
    simp only [List.length_cons]
    omega
  · simp
  · simp

/-- Newline normalization of the HTML input-stream preprocessor: a CR LF
pair and a lone CR both become a single LF, before any tokenization. -/
def normNewlines : List Char → List Char
  | [] => []
  | c :: rest =>
    if c = '\r' then
      if rest.head? = some '\n' then '\n' :: normNewlines rest.tail
      else '\n' :: normNewlines rest
    else c :: normNewlines rest
termination_by l => l.length
decreasing_by all_goals simp [List.length_tail] <;> omega

/-- The value sanitization algorithm of text inputs (the default `type` of
the inputs `addRow` creates): newlines (LF and CR) are stripped from the
value. -/
def stripNewlines (l : List Char) : List Char :=
  l.filter (fun c => c ≠ '\n' && c ≠ '\r')

/-- What an interpolated string becomes when `addRow` writes it into a
double-quoted `value="..."` attribute via `innerHTML` and the browser
parses it back into `input.value`: the input stream's newlines are
normalized to LF, the attribute text ends at the first `"`, character
references are decoded and NUL becomes U+FFFD, and finally the text-input
value sanitization strips the remaining newlines. -/
def attrParse (s : String) : String :=
  ⟨stripNewlines
    (decodeAttrChars ((normNewlines s.data).takeWhile (fun c => c ≠ '"')))⟩

/-- `addRow(key, val)` of the component, for string arguments: a new row is
appended whose input values are the attribute-parsed interpolations. -/
def addRowW (w : Widget) (key val : String) : Widget :=
  { w with rows := w.rows ++ [⟨attrParse key, attrParse val⟩] }

/-- Mirror the query string into one document element per `updateQuery`:
input-like elements get `value`, others get `textContent`. -/
def mirrorInto (sel qs : String) (el : Elem) : Elem :=
  if el.selMatch sel then
    if el.isInput then { el with value := qs } else { el with textContent := qs }
  else el

/-- `updateQuery()` of the component: recompute the derived query string
and, when the `target` attribute is truthy, write the string into every
matching document element. -/
def updateQuery (w : Widget) (doc : List Elem) : List Elem :=
  let qs := derivedQuery w.rows
  match w.target with
  | some sel => if sel ≠ "" then doc.map (mirrorInto sel qs) else doc
  | none => doc

/-- The loop shared by `loadParams` and `setParams`:
`forEach(i => addRow(i.key, i.value))` (destructuring reads the same two
properties in the same order). Property access may throw, ending the loop
with the rows added so far. -/
def addPairs (w : Widget) : List JsValue → Widget × Option String
  | [] => (w, none)
  | i :: rest =>
    match jsGetProp i "key" with
    | .error e => (w, some e)
    | .ok k =>
      match jsGetProp i "value" with
      | .error e => (w, some e)
      | .ok v => addPairs (addRowW w (jsToString k) (jsToString v)) rest

/-- `loadParams()` of the component. The argument is the outcome of reading
and `JSON.parse`-ing the `initial-data` attribute: `none` when the attribute
is absent, empty, or fails to parse (the catch leaves `items = []`), and
`some v` when parsing yields the JS value `v`. The code then runs
`if (items.length) items.forEach(i => addRow(i.key, i.value)); else addRow()`;
`.length` on null throws, and `.forEach` of a non-array with truthy length
is not a function. -/
def loadParams (w : Widget) (raw : Option JsValue) : Widget × Option String :=
  match raw with
  | none => (addRowW w "" "", none)
  | some items =>
    match jsGetProp items "length" with
    | .error e => (w, some e)
    | .ok len =>
      if jsTruthy len then
        match items with
        | .jarr xs => addPairs w xs
        | _ => (w, some "items.forEach is not a function")
      else (addRowW w "" "", none)

/-- `connectedCallback()` of the component: the table is rendered empty,
`loadParams` fills it from `initial-data`, then `updateQuery` publishes the
initial derived query string. A throw inside `loadParams` propagates before
`updateQuery` runs. -/
def connectedCallback (raw : Option JsValue) (tgt : Option String)
    (doc : List Elem) : Widget × List Elem × Option String :=
  let w0 : Widget := { initialized := true, rows := [], target := tgt }
  match loadParams w0 raw with
  | (w1, some e) => (w1, doc, some e)
  | (w1, none) => (w1, updateQuery w1 doc, none)

/-- `setParams(data, append)` of the component: non-arrays are rejected up
front with `Error("data must be an array")`; otherwise the rows are appended
to or replaced (replacement clears the table first and restores a single
empty row when the new data is empty), and `updateQuery` republishes. -/
def setParams (w : Widget) (doc : List Elem) (data : JsValue)
    (append : Bool) : Widget × List Elem × Option String :=
  match data with
  | .jarr xs =>
    if append then
      match addPairs w xs with
      | (w1, some e) => (w1, doc, some e)
      | (w1, none) => (w1, updateQuery w1 doc, none)
    else
      let w0 := { w with rows := [] }
      match addPairs w0 xs with
      | (w1, some e) => (w1, doc, some e)
      | (w1, none) =>
        let w2 := if xs.length = 0 then addRowW w1 "" "" else w1
        (w2, updateQuery w2 doc, none)
  | _ => (w, doc, some "data must be an array")

/-- `attributeChangedCallback("target", _, newVal)`: the attribute itself
has already changed on the element; the callback republishes via
`updateQuery` unless the widget is not yet initialized. -/
def attributeChangedTarget (w : Widget) (newVal : Option String)
    (doc : List Elem) : Widget × List Elem :=
  let w1 := { w with target := newVal }
  if w.initialized then (w1, updateQuery w1 doc) else (w1, doc)

/-- Lookup in a pair list by key, the key-to-value mapping a pair list
denotes. -/
def lookupRows (l : List Row) (k : String) : Option String :=
  (l.find? (fun r => r.key == k)).map Row.value

/-- Modelled from the spec: the value `GetParams()` should associate with a
key, per the words "later duplicate keys override earlier ones" — the
trimmed value of the last row whose trimmed key is the given key. -/
def specLastValue (rows : List Row) (k : String) : Option String :=
  match rows with
  | [] => none
  | r :: rest =>
    (specLastValue rest k).orElse
      (fun _ => if jsTrim r.key == k then some (jsTrim r.value) else none)

/-- Strings that survive the trip through a double-quoted HTML attribute
into a text input's value verbatim: no `"`, no `&` (character references
may be decoded after an ampersand), no NUL, and no newline (LF or CR). -/
def cleanStr (s : String) : Bool :=
  s.data.all
    (fun c => c ≠ '"' && c ≠ '&' && c ≠ '\x00' && c ≠ '\n' && c ≠ '\r')

/-- Values whose `length` property reads without throwing and is falsy:
exactly the parse results for which `loadParams` takes its
single-empty-row fallback branch. -/
def falsyLength (v : JsValue) : Bool :=
  match jsGetProp v "length" with
  | .ok len => !jsTruthy len
  | .error _ => false

theorem toNat_charOfCode {n : Nat} (h : n.isValidChar) :
    (charOfCode n).toNat = n := by
  unfold charOfCode
  rw [if_pos h]
  unfold Char.ofNat
  rw [dif_pos h]
  rfl

theorem charOfCode_toNat (c : Char) : charOfCode c.toNat = c := by
  unfold charOfCode
  rw [if_pos (show c.toNat.isValidChar from c.valid), Char.ofNat_toNat]

theorem mem_dropWhile_of_not {p : Char → Bool} {l : List Char} {c : Char}
    (hc : c ∈ l) (hp : p c = false) : c ∈ l.dropWhile p := by
  induction l with
  | nil => cases hc
  | cons d rest ih =>
    rw [List.dropWhile_cons]
    rcases List.mem_cons.mp hc with rfl | hmem
    · simp [hp]
    · by_cases hd : p d
      · simp only [hd, if_pos]
        exact ih hmem
      · simp only [hd, if_neg]
        exact List.mem_cons_of_mem _ hmem

theorem trimChars_all_ws {l : List Char} (h : trimChars l = []) :
    ∀ c ∈ l.dropWhile jsWS, jsWS c = true := by
  unfold trimChars at h
  rw [List.reverse_eq_nil_iff, List.dropWhile_eq_nil_iff] at h
  intro c hc
  exact h c (by simpa using hc)

theorem jsTrim_jsTrim_ne_empty {s : String} (h : jsTrim s ≠ "") :
    jsTrim (jsTrim s) ≠ "" := by
  intro hcon
  apply h
  have hcon' : trimChars (trimChars s.data) = [] := congrArg String.data hcon
  have hall := trimChars_all_ws hcon'
  -- the trimmed list is nonempty and its reversal starts with a
  -- non-whitespace character produced by dropWhile
  have hne : trimChars s.data ≠ [] := by
    intro hnil
    apply h
    show (⟨trimChars s.data⟩ : String) = ""
    rw [hnil]
  unfold trimChars at hne hall
  set m := (s.data.dropWhile jsWS).reverse with hm
  have hlen : 0 < (m.dropWhile jsWS).length := by
    rcases Nat.eq_zero_or_pos (m.dropWhile jsWS).length with h0 | h0
    · exact absurd (by simpa using List.length_eq_zero.mp h0) hne
    · exact h0
  have hhead := List.dropWhile_get_zero_not (p := jsWS) m hlen
  set c := (m.dropWhile jsWS).get ⟨0, hlen⟩ with hc
  have hmem : c ∈ m.dropWhile jsWS := List.get_mem _ _ _
  have hmem2 : c ∈ ((m.dropWhile jsWS).reverse).dropWhile jsWS := by
    have hmemrev : c ∈ (m.dropWhile jsWS).reverse := by simpa using hmem
    exact mem_dropWhile_of_not hmemrev (by simpa using hhead)
  have := hall c hmem2
  simp [this] at hhead

theorem decodeAttrChars_clean {l : List Char}
    (h : ∀ c ∈ l, c ≠ '&' ∧ c ≠ '\x00') : decodeAttrChars l = l := by
  induction l with
  | nil => rw [decodeAttrChars]
  | cons c rest ih =>
    have hc := h c (List.mem_cons_self _ _)
    have hrest := ih (fun d hd => h d (List.mem_cons_of_mem _ hd))
    rw [decodeAttrChars]
    rw [if_neg hc.1, if_neg hc.2, hrest]

theorem normNewlines_clean {l : List Char} (h : ∀ c ∈ l, c ≠ '\r') :
    normNewlines l = l := by
  induction l with
  | nil => rw [normNewlines]
  | cons c rest ih =>
    rw [normNewlines, if_neg (h c (List.mem_cons_self _ _)),
        ih (fun d hd => h d (List.mem_cons_of_mem _ hd))]

theorem stripNewlines_clean {l : List Char}
    (h : ∀ c ∈ l, c ≠ '\n' ∧ c ≠ '\r') : stripNewlines l = l := by
  unfold stripNewlines
  apply List.filter_eq_self.mpr
  intro a ha
  simp [(h a ha).1, (h a ha).2]

theorem attrParse_clean (s : String) (h : cleanStr s = true) :
    attrParse s = s := by
  have hmem : ∀ c ∈ s.data,
      c ≠ '"' ∧ c ≠ '&' ∧ c ≠ '\x00' ∧ c ≠ '\n' ∧ c ≠ '\r' := by
    intro c hc
    have := List.all_eq_true.mp h c hc
    simpa [and_assoc] using this
  unfold attrParse
  rw [normNewlines_clean (fun c hc => (hmem c hc).2.2.2.2),
      List.takeWhile_eq_self_iff.mpr (fun c hc => by
        simpa using (hmem c hc).1),
      decodeAttrChars_clean (fun c hc => ⟨(hmem c hc).2.1, (hmem c hc).2.2.1⟩),
      stripNewlines_clean (fun c hc =>
        ⟨(hmem c hc).2.2.2.1, (hmem c hc).2.2.2.2⟩)]

theorem attrParse_empty : attrParse "" = "" :=
  attrParse_clean "" (by decide)

theorem addRowW_rows (w : Widget) (k v : String) :
    (addRowW w k v).rows = w.rows ++ [⟨attrParse k, attrParse v⟩] := rfl

theorem setParams_not_arr {data : JsValue} (w : Widget) (doc : List Elem)
    (append : Bool) (h : isArr data = false) :
    setParams w doc data append = (w, doc, some "data must be an array") := by
  cases data <;> simp_all [setParams, isArr]

theorem addPairs_ok {xs : List JsValue}
    (h : ∀ i ∈ xs, jsNullish i = false) :
    ∀ w, (addPairs w xs).2 = none := by
  induction xs with
  | nil => intro w; rfl
  | cons i rest ih =>
    intro w
    have hi := h i (List.mem_cons_self _ _)
    have hrest := fun j hj => h j (List.mem_cons_of_mem i hj)
    cases i with
    | jnull => simp [jsNullish] at hi
    | jundef => simp [jsNullish] at hi
    | jbool b => simpa [addPairs, jsGetProp] using ih hrest _
    | jnum n => simpa [addPairs, jsGetProp] using ih hrest _
    | jstr s => simpa [addPairs, jsGetProp] using ih hrest _
    | jarr l => simpa [addPairs, jsGetProp] using ih hrest _
    | jobj l => simpa [addPairs, jsGetProp] using ih hrest _

theorem addPairs_err (xs : List JsValue) :
    ∀ w, (addPairs w xs).2 = none ∨
      (addPairs w xs).2 = some "Cannot read properties of null or undefined" := by
  induction xs with
  | nil => intro w; exact Or.inl rfl
  | cons i rest ih =>
    intro w
    cases i with
    | jnull => exact Or.inr rfl
    | jundef => exact Or.inr rfl
    | jbool b => simpa [addPairs, jsGetProp] using ih _
    | jnum n => simpa [addPairs, jsGetProp] using ih _
    | jstr s => simpa [addPairs, jsGetProp] using ih _
    | jarr l => simpa [addPairs, jsGetProp] using ih _
    | jobj l => simpa [addPairs, jsGetProp] using ih _

theorem addPairs_len {xs : List JsValue} :
    ∀ w w1, addPairs w xs = (w1, none) →
      w1.rows.length = w.rows.length + xs.length := by
  induction xs with
  | nil => intro w w1 h; cases h; simp [addPairs]
  | cons i rest ih =>
    intro w w1 h
    rcases hk : jsGetProp i "key" with e | k
    · rw [addPairs, hk] at h; cases h
    · rcases hv : jsGetProp i "value" with e | v
      · rw [addPairs, hk, hv] at h; cases h
      · rw [addPairs, hk, hv] at h
        have := ih _ _ h
        simp [addRowW] at this
        simp [this]
        omega

theorem loadParams_none (w : Widget) :
    loadParams w none = (addRowW w "" "", none) := rfl

theorem loadParams_nullish (w : Widget) :
    loadParams w (some .jnull) =
      (w, some "Cannot read properties of null or undefined") ∧
    loadParams w (some .jundef) =
      (w, some "Cannot read properties of null or undefined") :=
  ⟨rfl, rfl⟩

theorem loadParams_bool (w : Widget) (b : Bool) :
    loadParams w (some (.jbool b)) = (addRowW w "" "", none) := rfl

theorem loadParams_num (w : Widget) (n : Int) :
    loadParams w (some (.jnum n)) = (addRowW w "" "", none) := rfl

theorem loadParams_arr (w : Widget) (xs : List JsValue) :
    loadParams w (some (.jarr xs)) =
      if xs.length ≠ 0 then addPairs w xs else (addRowW w "" "", none) := by
  show (match jsGetProp (.jarr xs) "length" with
        | .error e => (w, some e)
        | .ok len =>
          if jsTruthy len then
            match JsValue.jarr xs with
            | .jarr xs => addPairs w xs
            | _ => (w, some "items.forEach is not a function")
          else (addRowW w "" "", none)) = _
  have hok : jsGetProp (.jarr xs) "length" = .ok (.jnum xs.length) := by
    simp [jsGetProp]
  rw [hok]
  by_cases hx : xs.length = 0
  · simp [jsTruthy, hx]
  · simp [jsTruthy, hx]

theorem loadParams_str (w : Widget) (s : String) :
    loadParams w (some (.jstr s)) =
      if s.length ≠ 0 then (w, some "items.forEach is not a function")
      else (addRowW w "" "", none) := by
  show (match jsGetProp (.jstr s) "length" with
        | .error e => (w, some e)
        | .ok len =>
          if jsTruthy len then
            match JsValue.jstr s with
            | .jarr xs => addPairs w xs
            | _ => (w, some "items.forEach is not a function")
          else (addRowW w "" "", none)) = _
  have hok : jsGetProp (.jstr s) "length" = .ok (.jnum s.length) := by
    simp [jsGetProp]
  rw [hok]
  by_cases hx : s.length = 0
  · simp [jsTruthy, hx]
  · simp [jsTruthy, hx]

theorem loadParams_obj (w : Widget) (fs : List (String × JsValue)) :
    loadParams w (some (.jobj fs)) =
      if jsTruthy ((fs.lookup "length").getD .jundef) then
        (w, some "items.forEach is not a function")
      else (addRowW w "" "", none) := by
  show (match jsGetProp (.jobj fs) "length" with
        | .error e => (w, some e)
        | .ok len =>
          if jsTruthy len then
            match JsValue.jobj fs with
            | .jarr xs => addPairs w xs
            | _ => (w, some "items.forEach is not a function")
          else (addRowW w "" "", none)) = _
  rfl

theorem loadParams_ok_len {raw : Option JsValue} {w w1 : Widget}
    (h : loadParams w raw = (w1, none)) :
    w.rows.length < w1.rows.length := by
  have haddrow : ∀ k v : String, ((addRowW w k v, (none : Option String)) =
      (w1, (none : Option String))) → w.rows.length < w1.rows.length := by
    intro k v hh
    rw [Prod.mk.injEq] at hh
    rw [← hh.1]
    simp [addRowW]
  cases raw with
  | none => exact haddrow "" "" (by rw [← loadParams_none w]; exact h)
  | some items =>
    cases items with
    | jnull =>
      rw [(loadParams_nullish w).1, Prod.mk.injEq] at h
      exact absurd h.2 (by simp)
    | jundef =>
      rw [(loadParams_nullish w).2, Prod.mk.injEq] at h
      exact absurd h.2 (by simp)
    | jbool b => exact haddrow "" "" (by rw [← loadParams_bool w b]; exact h)
    | jnum n => exact haddrow "" "" (by rw [← loadParams_num w n]; exact h)
    | jarr xs =>
      rw [loadParams_arr] at h
      by_cases hx : xs.length = 0
      · rw [if_neg (by omega)] at h
        exact haddrow "" "" h
      · rw [if_pos hx] at h
        have hlen2 := addPairs_len _ _ h
        omega
    | jstr s =>
      rw [loadParams_str] at h
      by_cases hx : s.length = 0
      · rw [if_neg (by omega)] at h
        exact haddrow "" "" h
      · rw [if_pos hx] at h
        rw [Prod.mk.injEq] at h
        exact absurd h.2 (by simp)
    | jobj fs =>
      rw [loadParams_obj] at h
      by_cases hx : jsTruthy ((fs.lookup "length").getD .jundef) = true
      · rw [if_pos hx, Prod.mk.injEq] at h
        exact absurd h.2 (by simp)
      · rw [if_neg hx] at h
        exact haddrow "" "" h

/-- C9: when `setParams` is given a non-array argument it throws
`Error("data must be an array")` before any mutation: the row list and all
mirror elements are returned unchanged (the operation is atomic on error). -/
theorem claim_C9 (w : Widget) (doc : List Elem) (data : JsValue)
    (append : Bool) (h : isArr data = false) :
    setParams w doc data append = (w, doc, some "data must be an array") :=
  setParams_not_arr w doc append h

/-- Witness for C9 at a concrete non-array argument. -/
theorem claim_C9_witness :
    setParams ⟨true, [⟨"a", "b"⟩], none⟩ [] (.jstr "nope") false =
      (⟨true, [⟨"a", "b"⟩], none⟩, [], some "data must be an array") :=
  claim_C9 ⟨true, [⟨"a", "b"⟩], none⟩ [] (.jstr "nope") false rfl

/-- C6: appending an empty array (`setParams([], true)`) leaves the row
list exactly as it was and raises no error, whatever the (non-empty) table
held. -/
theorem claim_C6 (w : Widget) (doc : List Elem) (hne : w.rows ≠ []) :
    (setParams w doc (.jarr []) true).1.rows = w.rows ∧
    (setParams w doc (.jarr []) true).2.2 = none := by
  exact ⟨rfl, rfl⟩

/-- Witness for C6 on a one-row table. -/
theorem claim_C6_witness :
    (setParams ⟨true, [⟨"a", "b"⟩], none⟩ [] (.jarr []) true).1.rows =
      [⟨"a", "b"⟩] ∧
    (setParams ⟨true, [⟨"a", "b"⟩], none⟩ [] (.jarr []) true).2.2 = none :=
  claim_C6 ⟨true, [⟨"a", "b"⟩], none⟩ [] (by decide)

/-- C5: initialization leaves at least one row whenever it completes
without throwing, and a bulk replace with empty data
(`setParams([], false)`) leaves exactly one empty row. -/
theorem claim_C5 :
    (∀ raw tgt doc, (connectedCallback raw tgt doc).2.2 = none →
      (connectedCallback raw tgt doc).1.rows ≠ []) ∧
    (∀ (w : Widget) (doc : List Elem),
      (setParams w doc (.jarr []) false).1.rows = [⟨"", ""⟩] ∧
      (setParams w doc (.jarr []) false).2.2 = none) := by
  constructor
  · intro raw tgt doc h
    unfold connectedCallback at *
    simp only [] at h ⊢
    rcases hl : loadParams ⟨true, [], tgt⟩ raw with ⟨w1, e⟩
    rw [hl] at h
    cases e with
    | some e => exact Option.noConfusion h
    | none =>
      show w1.rows ≠ []
      have := loadParams_ok_len hl
      simp only [List.length_nil] at this
      intro hnil
      rw [hnil] at this
      simp at this
  · intro w doc
    constructor
    · show ([] : List Row) ++ [⟨attrParse "", attrParse ""⟩] = [⟨"", ""⟩]
      rw [attrParse_empty]
      rfl
    · rfl

/-- Witness for C5 with an absent initial-data attribute. -/
theorem claim_C5_witness :
    (connectedCallback none none []).1.rows ≠ [] :=
  claim_C5.1 none none [] rfl

/-- C3 counterexample: the initial-data text `"abc"` is valid JSON (a JSON
string) that is not a pair list, yet initialization throws
(`items.forEach is not a function`) instead of silently falling back to one
empty row. -/
theorem claim_C3_counterexample :
    (connectedCallback (some (.jstr "abc")) none []).2.2 =
      some "items.forEach is not a function" := rfl

/-- C3 (amended): initial data that fails to parse as JSON, and parsed JSON
values whose `length` property is readable and falsy (empty array, object
without a truthy `length`, number, boolean, empty string), raise no error
and fall back to exactly one empty row. Parsed JSON of other shapes can
throw (null, non-empty strings) or fill the table from the items instead. -/
theorem claim_C3 (raw : Option JsValue) (tgt : Option String)
    (doc : List Elem)
    (h : raw = none ∨ ∃ v, raw = some v ∧ falsyLength v = true) :
    (connectedCallback raw tgt doc).2.2 = none ∧
    (connectedCallback raw tgt doc).1.rows = [⟨"", ""⟩] := by
  have hload : loadParams ⟨true, [], tgt⟩ raw =
      (addRowW ⟨true, [], tgt⟩ "" "", none) := by
    rcases h with rfl | ⟨v, rfl, hv⟩
    · exact loadParams_none _
    · cases v with
      | jnull => simp [falsyLength, jsGetProp] at hv
      | jundef => simp [falsyLength, jsGetProp] at hv
      | jbool b => exact loadParams_bool _ _
      | jnum n => exact loadParams_num _ _
      | jstr s =>
        have hs : s.length = 0 := by
          simpa [falsyLength, jsGetProp, jsTruthy] using hv
        rw [loadParams_str, if_neg (by omega)]
      | jarr xs =>
        have hs : xs.length = 0 := by
          simpa [falsyLength, jsGetProp, jsTruthy] using hv
        rw [loadParams_arr, if_neg (by omega)]
      | jobj fs =>
        have hs : jsTruthy ((fs.lookup "length").getD .jundef) = false := by
          simpa [falsyLength, jsGetProp] using hv
        rw [loadParams_obj, if_neg (by simp [hs])]
  unfold connectedCallback
  simp only []
  rw [hload]
  refine ⟨rfl, ?_⟩
  show ([] : List Row) ++ [⟨attrParse "", attrParse ""⟩] = [⟨"", ""⟩]
  rw [attrParse_empty]
  rfl

/-- Witness for C3 at a parsed empty JSON object. -/
theorem claim_C3_witness :
    (connectedCallback (some (.jobj [])) none []).2.2 = none ∧
    (connectedCallback (some (.jobj [])) none []).1.rows = [⟨"", ""⟩] :=
  claim_C3 (some (.jobj [])) none [] (Or.inr ⟨.jobj [], rfl, rfl⟩)

theorem setParams_arr_append (w : Widget) (doc : List Elem)
    (xs : List JsValue) :
    setParams w doc (.jarr xs) true =
      match addPairs w xs with
      | (w1, some e) => (w1, doc, some e)
      | (w1, none) => (w1, updateQuery w1 doc, none) := rfl

theorem setParams_arr_replace (w : Widget) (doc : List Elem)
    (xs : List JsValue) :
    setParams w doc (.jarr xs) false =
      match addPairs { w with rows := [] } xs with
      | (w1, some e) => (w1, doc, some e)
      | (w1, none) =>
        let w2 := if xs.length = 0 then addRowW w1 "" "" else w1
        (w2, updateQuery w2 doc, none) := rfl

theorem setParams_arr_err (w : Widget) (doc : List Elem) (xs : List JsValue)
    (append : Bool) :
    (setParams w doc (.jarr xs) append).2.2 =
      (addPairs (if append then w else { w with rows := [] }) xs).2 := by
  cases append with
  | true =>
    rw [setParams_arr_append]
    rcases hp : addPairs w xs with ⟨w1, e⟩
    simp only [if_true]
    rw [hp]
    cases e <;> rfl
  | false =>
    rw [setParams_arr_replace]
    rcases hp : addPairs { w with rows := [] } xs with ⟨w1, e⟩
    simp only [Bool.false_eq_true, if_false]
    rw [hp]
    cases e <;> rfl

/-- C4 counterexample: `setParams([null], false)` receives a sequence (an
array), yet does not complete without error — destructuring the null
element throws a TypeError. -/
theorem claim_C4_counterexample :
    (setParams ⟨true, [], none⟩ [] (.jarr [.jnull]) false).2.2 =
      some "Cannot read properties of null or undefined" := rfl

/-- C4 (amended): `setParams` fails with the InvalidArgument error
(`data must be an array`) exactly when its argument is not an array; an
array argument never produces that error, and an array whose elements are
all non-nullish completes without error (nullish elements instead throw a
TypeError while destructuring). -/
theorem claim_C4 (w : Widget) (doc : List Elem) (data : JsValue)
    (append : Bool) :
    ((setParams w doc data append).2.2 = some "data must be an array" ↔
      isArr data = false) ∧
    (∀ xs, data = .jarr xs → (∀ i ∈ xs, jsNullish i = false) →
      (setParams w doc data append).2.2 = none) := by
  constructor
  · constructor
    · intro herr
      by_contra hnot
      rw [Bool.not_eq_false] at hnot
      cases data with
      | jarr xs =>
        rw [setParams_arr_err] at herr
        rcases addPairs_err xs
            (if append then w else { w with rows := [] }) with h0 | h0 <;>
          rw [h0] at herr
        · exact Option.noConfusion herr
        · injection herr with hs
          exact absurd hs (by decide)
      | jnull => simp [isArr] at hnot
      | jundef => simp [isArr] at hnot
      | jbool b => simp [isArr] at hnot
      | jnum n => simp [isArr] at hnot
      | jstr s => simp [isArr] at hnot
      | jobj fs => simp [isArr] at hnot
    · intro hnot
      rw [setParams_not_arr w doc append hnot]
  · rintro xs rfl hok
    rw [setParams_arr_err]
    exact addPairs_ok hok _

/-- Witness for C4 on a one-element array of a non-pair value. -/
theorem claim_C4_witness :
    (setParams ⟨true, [], none⟩ [] (.jarr [.jnum 1]) false).2.2 = none :=
  (claim_C4 ⟨true, [], none⟩ [] (.jarr [.jnum 1]) false).2 [.jnum 1] rfl
    (by intro i hi; simp at hi; subst hi; rfl)

/-- C10 counterexample: `addRow` writes its arguments into a double-quoted
HTML attribute via `innerHTML`, so the stored text is what the HTML
pipeline yields, not the argument: a key containing a double quote is
truncated at the quote (`addRow("a\"b", "v")` stores the key `a`), and a
key containing a newline has it stripped by the text-input value
sanitization (`addRow("a\nb", "v")` stores the key `ab`). -/
theorem claim_C10_counterexample :
    ((addRowW ⟨true, [], none⟩ "a\"b" "v").rows = [⟨"a", "v"⟩] ∧
      ¬ (addRowW ⟨true, [], none⟩ "a\"b" "v").rows = [⟨"a\"b", "v"⟩]) ∧
    ((addRowW ⟨true, [], none⟩ "a\nb" "v").rows = [⟨"ab", "v"⟩] ∧
      ¬ (addRowW ⟨true, [], none⟩ "a\nb" "v").rows = [⟨"a\nb", "v"⟩]) := by
  have h1 : (addRowW ⟨true, [], none⟩ "a\"b" "v").rows = [⟨"a", "v"⟩] := by
    simp [addRowW_rows, attrParse, normNewlines, decodeAttrChars, refTail,
      stripNewlines]
  have h2 : (addRowW ⟨true, [], none⟩ "a\nb" "v").rows = [⟨"ab", "v"⟩] := by
    simp [addRowW_rows, attrParse, normNewlines, decodeAttrChars, refTail,
      stripNewlines]
  refine ⟨⟨h1, ?_⟩, h2, ?_⟩
  · rw [h1]; simp
  · rw [h2]; simp

/-- C10 (amended): `addRow(key, value)` appends a row whose stored key and
value equal the arguments verbatim, provided neither argument contains a
double quote, an ampersand, a NUL, or a newline (LF or CR) character;
other strings are altered by the HTML pipeline `addRow` goes through —
attribute truncation at `"`, character-reference decoding after `&`, NUL
replacement by U+FFFD, and newline stripping by the text-input value
sanitization. -/
theorem claim_C10 (w : Widget) (key val : String)
    (hk : cleanStr key = true) (hv : cleanStr val = true) :
    (addRowW w key val).rows = w.rows ++ [⟨key, val⟩] := by
  rw [addRowW_rows, attrParse_clean key hk, attrParse_clean val hv]

/-- Witness for C10 on plain arguments. -/
theorem claim_C10_witness :
    (addRowW ⟨true, [], none⟩ "abc" "x y").rows =
      ([] : List Row) ++ [⟨"abc", "x y"⟩] :=
  claim_C10 ⟨true, [], none⟩ "abc" "x y" (by decide) (by decide)

/-- C8: once the widget is initialized, changing the `target` attribute to a
truthy selector immediately republishes: every matching document element
receives the current derived query string — in `value` if it is input-like,
in `textContent` otherwise — with no intervening edit. -/
theorem claim_C8 (w : Widget) (doc : List Elem) (sel : String) (el : Elem)
    (hinit : w.initialized = true) (hsel : sel ≠ "")
    (hel : el ∈ doc) (hmatch : el.selMatch sel = true) :
    (if el.isInput then { el with value := derivedQuery w.rows }
     else { el with textContent := derivedQuery w.rows })
      ∈ (attributeChangedTarget w (some sel) doc).2 := by
  unfold attributeChangedTarget
  rw [hinit]
  simp only [if_true]
  unfold updateQuery
  simp only []
  rw [if_pos hsel]
  exact List.mem_map.mpr ⟨el, hel, by simp [mirrorInto, hmatch]⟩

/-- Witness for C8: a matching input-like element in a one-element document
receives the derived query string. -/
theorem claim_C8_witness :
    (if (⟨fun _ => true, true, "", ""⟩ : Elem).isInput then
       { (⟨fun _ => true, true, "", ""⟩ : Elem) with
           value := derivedQuery [⟨"a", "1"⟩] }
     else
       { (⟨fun _ => true, true, "", ""⟩ : Elem) with
           textContent := derivedQuery [⟨"a", "1"⟩] })
      ∈ (attributeChangedTarget ⟨true, [⟨"a", "1"⟩], none⟩ (some "#out")
          [⟨fun _ => true, true, "", ""⟩]).2 :=
  claim_C8 ⟨true, [⟨"a", "1"⟩], none⟩ [⟨fun _ => true, true, "", ""⟩] "#out"
    ⟨fun _ => true, true, "", ""⟩ rfl (by decide)
    (List.mem_singleton.mpr rfl) rfl

/-- C2: `parseUrlToData` parses bare query strings and full URLs into the
ordered pair sequence, but on input with neither `?` nor `=` it returns the
JSON string `[]` even when the array form is requested — a value the
component's own `setParams` rejects, contradicting the function's
documented contract of returning "an array to be used in setParams". -/
theorem claim_C2 :
    parseUrlToData "no-params-here" true = .str "[]" ∧
    parseUrlToData "a=1&b=2" true = .rows [⟨"a", "1"⟩, ⟨"b", "2"⟩] ∧
    parseUrlToData "https://example.com?a=1&b=2" true =
      .rows [⟨"a", "1"⟩, ⟨"b", "2"⟩] ∧
    (setParams ⟨true, [], none⟩ [] (.jstr "[]") false).2.2 =
      some "data must be an array" := by
  refine ⟨by decide, ?_, ?_, rfl⟩ <;>
    simp [parseUrlToData, newURLSearchParams, urlencodedParse, utf8List,
      utf8EncodeChar, splitOnByte, splitFirstEq, parsePart, percentDecode,
      utf8Decode, charOfCode, byteAt, contAt, String.data, Nat.isValidChar]

theorem mem_uspSet {l : List Row} {k v : String} {p : Row}
    (h : p ∈ uspSet l k v) : p = ⟨k, v⟩ ∨ p ∈ l := by
  induction l with
  | nil =>
    rw [uspSet] at h
    rcases List.mem_singleton.mp h with rfl
    exact Or.inl rfl
  | cons r rest ih =>
    rw [uspSet] at h
    by_cases hk : r.key = k
    · rw [if_pos hk] at h
      rcases List.mem_cons.mp h with rfl | hmem
      · exact Or.inl rfl
      · exact Or.inr (List.mem_cons_of_mem _ (List.mem_of_mem_filter hmem))
    · rw [if_neg hk] at h
      rcases List.mem_cons.mp h with rfl | hmem
      · exact Or.inr (List.mem_cons_self _ _)
      · rcases ih hmem with h0 | h0
        · exact Or.inl h0
        · exact Or.inr (List.mem_cons_of_mem _ h0)

theorem lookupRows_cons (r : Row) (l : List Row) (k : String) :
    lookupRows (r :: l) k =
      if r.key = k then some r.value else lookupRows l k := by
  unfold lookupRows
  by_cases h : r.key = k
  · rw [if_pos h, List.find?_cons_of_pos _ (by simp [h])]
    rfl
  · rw [if_neg h, List.find?_cons_of_neg _ (by simp [h])]

theorem lookupRows_filter (l : List Row) (k k' : String) (hne : k' ≠ k) :
    lookupRows (l.filter (fun r => r.key ≠ k)) k' = lookupRows l k' := by
  induction l with
  | nil => rfl
  | cons r rest ih =>
    by_cases hr : r.key = k
    · rw [List.filter_cons_of_neg (by simp [hr]), ih, lookupRows_cons,
          if_neg (by rw [hr]; exact fun h => hne h.symm)]
    · rw [List.filter_cons_of_pos (by simp [hr]), lookupRows_cons,
          lookupRows_cons, ih]

theorem lookupRows_uspSet (l : List Row) (k v k' : String) :
    lookupRows (uspSet l k v) k' =
      if k' = k then some v else lookupRows l k' := by
  induction l with
  | nil =>
    by_cases hk : k' = k
    · rw [if_pos hk, uspSet, lookupRows_cons, if_pos hk.symm]
    · rw [if_neg hk, uspSet, lookupRows_cons,
          if_neg (fun h => hk h.symm)]
  | cons r rest ih =>
    by_cases hr : r.key = k
    · rw [uspSet, if_pos hr]
      by_cases hk : k' = k
      · rw [if_pos hk, lookupRows_cons, if_pos hk.symm]
      · rw [if_neg hk, lookupRows_cons, if_neg (fun h => hk h.symm),
            lookupRows_filter rest k k' hk, lookupRows_cons,
            if_neg (by rw [hr]; exact fun h => hk h.symm)]
    · rw [uspSet, if_neg hr, lookupRows_cons]
      by_cases hk : k' = k
      · rw [if_neg (by rw [hk]; exact hr), ih, if_pos hk, if_pos hk]
      · by_cases hk2 : r.key = k'
        · rw [if_pos hk2, if_neg hk, lookupRows_cons, if_pos hk2]
        · rw [if_neg hk2, ih, if_neg hk, if_neg hk, lookupRows_cons,
              if_neg hk2]

theorem uspStep_eq (usp : List Row) (r : Row) :
    uspStep usp r =
      if jsTrim r.key ≠ "" then uspSet usp (jsTrim r.key) (jsTrim r.value)
      else usp := rfl

theorem foldl_uspStep_lookup (k : String) (hk : k ≠ "") :
    ∀ (rows acc : List Row),
      lookupRows (rows.foldl uspStep acc) k =
        (specLastValue rows k).orElse (fun _ => lookupRows acc k) := by
  intro rows
  induction rows with
  | nil =>
    intro acc
    rw [List.foldl_nil, specLastValue]
    rfl
  | cons r rest ih =>
    intro acc
    rw [List.foldl_cons, ih, specLastValue]
    rcases hs : specLastValue rest k with _ | v
    · simp only [Option.orElse]
      by_cases hr : jsTrim r.key = ""
      · rw [uspStep_eq, if_neg (by simpa using hr)]
        rw [show (jsTrim r.key == k) = false by simp [hr]; exact fun h => hk h.symm]
        simp
      · rw [uspStep_eq, if_pos (by simpa using hr), lookupRows_uspSet]
        by_cases hkr : k = jsTrim r.key
        · rw [if_pos hkr, show (jsTrim r.key == k) = true by simp [hkr]]
          simp
        · rw [if_neg hkr, show (jsTrim r.key == k) = false by
              simp; exact fun h => hkr h.symm]
          simp
    · simp only [Option.orElse]

theorem foldl_uspStep_trimmed :
    ∀ (rows acc : List Row), (∀ p ∈ acc, jsTrim p.key ≠ "") →
      ∀ p ∈ rows.foldl uspStep acc, jsTrim p.key ≠ "" := by
  intro rows
  induction rows with
  | nil => intro acc hacc; simpa using hacc
  | cons r rest ih =>
    intro acc hacc
    rw [List.foldl_cons]
    apply ih
    intro p hp
    by_cases hr : jsTrim r.key = ""
    · rw [uspStep_eq, if_neg (by simpa using hr)] at hp
      exact hacc p hp
    · rw [uspStep_eq, if_pos (by simpa using hr)] at hp
      rcases mem_uspSet hp with rfl | hpmem
      · exact jsTrim_jsTrim_ne_empty hr
      · exact hacc p hpmem

theorem uspSet_keys_nodup {l : List Row} (k v : String)
    (h : (l.map Row.key).Nodup) :
    ((uspSet l k v).map Row.key).Nodup := by
  induction l with
  | nil => simp [uspSet]
  | cons r rest ih =>
    rw [List.map_cons, List.nodup_cons] at h
    rw [uspSet]
    by_cases hr : r.key = k
    · rw [if_pos hr]
      rw [List.map_cons, List.nodup_cons]
      constructor
      · intro hmem
        obtain ⟨p, hp, hpk⟩ := List.mem_map.mp hmem
        have := List.of_mem_filter hp
        simp at this
        exact this hpk
      · have hsub : (rest.filter (fun r => r.key ≠ k)).Sublist rest :=
          List.filter_sublist _
        exact h.2.sublist (hsub.map Row.key)
    · rw [if_neg hr]
      rw [List.map_cons, List.nodup_cons]
      constructor
      · intro hmem
        obtain ⟨p, hp, hpk⟩ := List.mem_map.mp hmem
        rcases mem_uspSet hp with rfl | hpmem
        · exact hr hpk.symm
        · exact h.1 (List.mem_map.mpr ⟨p, hpmem, hpk⟩)
      · exact ih h.2

theorem foldl_uspStep_nodup :
    ∀ (rows acc : List Row), ((acc.map Row.key)).Nodup →
      ((rows.foldl uspStep acc).map Row.key).Nodup := by
  intro rows
  induction rows with
  | nil => intro acc hacc; simpa using hacc
  | cons r rest ih =>
    intro acc hacc
    rw [List.foldl_cons]
    apply ih
    by_cases hr : jsTrim r.key = ""
    · rw [uspStep_eq, if_neg (by simpa using hr)]
      exact hacc
    · rw [uspStep_eq, if_pos (by simpa using hr)]
      exact uspSet_keys_nodup _ _ hacc

theorem getSearchParams_keys_nodup (rows : List Row) :
    ((getSearchParamsOf rows).map Row.key).Nodup :=
  foldl_uspStep_nodup rows [] (by simp)

theorem uspSet_of_not_mem {l : List Row} {k : String} (v : String)
    (h : ¬ k ∈ l.map Row.key) :
    uspSet l k v = l ++ [⟨k, v⟩] := by
  induction l with
  | nil => rfl
  | cons r rest ih =>
    rw [List.map_cons] at h
    have hr : ¬ r.key = k := fun he => h (by rw [he]; exact List.mem_cons_self _ _)
    have hrest : ¬ k ∈ rest.map Row.key := fun hm => h (List.mem_cons_of_mem _ hm)
    rw [uspSet, if_neg hr, ih hrest]
    rfl

theorem fromEntries_eq_self {l : List Row} (h : (l.map Row.key).Nodup) :
    fromEntries l = l := by
  suffices h2 : ∀ acc : List Row, ((acc ++ l).map Row.key).Nodup →
      l.foldl (fun a r => uspSet a r.key r.value) acc = acc ++ l by
    simpa using h2 [] (by simpa using h)
  clear h
  induction l with
  | nil => intro acc _; simp
  | cons r rest ih =>
    intro acc hacc
    have hk : ¬ r.key ∈ acc.map Row.key := by
      intro hmem
      rw [List.map_append, List.nodup_append] at hacc
      exact hacc.2.2 hmem (by simp)
    rw [List.foldl_cons, uspSet_of_not_mem r.value hk]
    have := ih (acc ++ [r]) (by simpa using hacc)
    simpa using this

theorem getParams_eq (rows : List Row) :
    getParams rows = getSearchParamsOf rows :=
  fromEntries_eq_self (getSearchParams_keys_nodup rows)

/-- C7: the mapping `getParams()` returns contains no key that is empty
after trimming, and for every nonempty key its value is the trimmed value
of the last row whose trimmed key matches (later rows override earlier
ones). -/
theorem claim_C7 (rows : List Row) :
    (∀ p ∈ getParams rows, jsTrim p.key ≠ "") ∧
    (∀ k, k ≠ "" → lookupRows (getParams rows) k = specLastValue rows k) := by
  rw [getParams_eq]
  constructor
  · exact foldl_uspStep_trimmed rows [] (by simp)
  · intro k hk
    have h := foldl_uspStep_lookup k hk rows []
    unfold getSearchParamsOf
    rw [h]
    rcases hs : specLastValue rows k with _ | v <;>
      simp [Option.orElse, lookupRows]

/-- Witness for C7: among rows with keys `" a "`, `"a"` and an
empty-trimming key, the mapping returns the later value `2`. -/
theorem claim_C7_witness :
    lookupRows (getParams [⟨" a ", "1"⟩, ⟨"a", " 2 "⟩, ⟨" ", "z"⟩]) "a" =
      some "2" :=
  ((claim_C7 [⟨" a ", "1"⟩, ⟨"a", " 2 "⟩, ⟨" ", "z"⟩]).2 "a"
      (by decide)).trans (by decide)

theorem utf8EncodeChar_lt256 (c : Char) : ∀ b ∈ utf8EncodeChar c, b < 256 := by
  intro b hb
  unfold utf8EncodeChar at hb
  have h4 : c.toNat < 0x110000 := by
    rcases (show c.toNat.isValidChar from c.valid) with h | h <;> omega
  by_cases h1 : c.toNat < 0x80
  · rw [if_pos h1] at hb
    simp at hb
    omega
  · rw [if_neg h1] at hb
    by_cases h2 : c.toNat < 0x800
    · rw [if_pos h2] at hb
      simp at hb
      rcases hb with rfl | rfl <;> omega
    · rw [if_neg h2] at hb
      by_cases h3 : c.toNat < 0x10000
      · rw [if_pos h3] at hb
        simp at hb
        rcases hb with rfl | rfl | rfl <;> omega
      · rw [if_neg h3] at hb
        simp at hb
        rcases hb with rfl | rfl | rfl | rfl <;> omega

theorem urlencodedKeep_range {b : Nat} (h : urlencodedKeep b = true) :
    0x2A ≤ b ∧ b ≤ 0x7A ∧ b ≠ 0x2B ∧ b ≠ 0x3D ∧ b ≠ 0x26 ∧ b ≠ 0x3F ∧
    b ≠ 0x25 := by
  unfold urlencodedKeep at h
  simp only [Bool.or_eq_true, decide_eq_true_eq, Bool.and_eq_true,
    beq_iff_eq] at h
  omega

theorem hexDigitByte_range {n : Nat} (h : n < 16) :
    (0x30 ≤ hexDigitByte n ∧ hexDigitByte n ≤ 0x39) ∨
    (0x41 ≤ hexDigitByte n ∧ hexDigitByte n ≤ 0x46) := by
  unfold hexDigitByte
  by_cases h10 : n < 10
  · rw [if_pos h10]; omega
  · rw [if_neg h10]; omega

theorem isHexByte_hexDigitByte {n : Nat} (h : n < 16) :
    isHexByte (hexDigitByte n) = true := by
  unfold isHexByte
  rcases hexDigitByte_range h with h2 | h2 <;>
    simp only [Bool.or_eq_true, Bool.and_eq_true, decide_eq_true_eq] <;>
    omega

theorem hexVal_hexDigitByte {n : Nat} (h : n < 16) :
    hexVal (hexDigitByte n) = n := by
  unfold hexVal hexDigitByte
  by_cases h10 : n < 10
  · rw [if_pos h10, if_pos (by omega)]
    omega
  · rw [if_neg h10, if_neg (by omega), if_pos (by omega)]
    omega

theorem percentEncodeByte_facts {b : Nat} (hb : b < 256) :
    ∀ b2 ∈ percentEncodeByte b,
      b2 < 0x80 ∧ b2 ≠ 0x26 ∧ b2 ≠ 0x3D ∧ b2 ≠ 0x3F := by
  intro b2 hb2
  unfold percentEncodeByte at hb2
  by_cases h20 : b = 0x20
  · rw [if_pos h20] at hb2
    simp at hb2
    omega
  · rw [if_neg h20] at hb2
    by_cases hkeep : urlencodedKeep b = true
    · rw [if_pos hkeep] at hb2
      simp at hb2
      have := urlencodedKeep_range hkeep
      omega
    · rw [if_neg hkeep] at hb2
      simp at hb2
      have hd1 := hexDigitByte_range (n := b / 16) (by omega)
      have hd2 := hexDigitByte_range (n := b % 16) (by omega)
      rcases hb2 with rfl | rfl | rfl
      · omega
      · omega
      · omega

theorem byteAt_cons_zero (b : Nat) (l : List Nat) : byteAt (b :: l) 0 = b := rfl

theorem byteAt_cons_succ (b : Nat) (l : List Nat) (i : Nat) :
    byteAt (b :: l) (i + 1) = byteAt l i := rfl

theorem contAt_cons_zero (b : Nat) (l : List Nat) :
    contAt (b :: l) 0 = contByte b := rfl

theorem contAt_cons_succ (b : Nat) (l : List Nat) (i : Nat) :
    contAt (b :: l) (i + 1) = contAt l i := rfl

theorem percentDecode_cons_plain {b : Nat} (hb : b ≠ 0x25) (l : List Nat) :
    percentDecode (b :: l) = b :: percentDecode l := by
  rw [percentDecode]
  rw [if_neg (fun hcon => hb hcon.1)]

theorem percentDecode_encode_prefix {b : Nat} (hb : b < 256)
    (tail : List Nat) :
    percentDecode
      (((percentEncodeByte b).map fun x => if x = 0x2B then 0x20 else x) ++
        tail) = b :: percentDecode tail := by
  unfold percentEncodeByte
  by_cases h20 : b = 0x20
  · subst h20
    rw [if_pos rfl]
    simp only [List.map_cons, List.map_nil, List.cons_append,
      List.nil_append]
    simp only [if_true]
    rw [percentDecode_cons_plain (by omega)]
  · rw [if_neg h20]
    by_cases hkeep : urlencodedKeep b = true
    · rw [if_pos hkeep]
      have hr := urlencodedKeep_range hkeep
      simp only [List.map_cons, List.map_nil, List.cons_append,
        List.nil_append]
      rw [if_neg (by omega)]
      rw [percentDecode_cons_plain (by omega)]
    · rw [if_neg hkeep]
      have hd1 := hexDigitByte_range (n := b / 16) (by omega)
      have hd2 := hexDigitByte_range (n := b % 16) (by omega)
      simp only [List.map_cons, List.map_nil, List.cons_append,
        List.nil_append]
      rw [if_neg (by omega), if_neg (by omega), if_neg (by omega)]
      rw [percentDecode]
      rw [if_pos ?hcond]
      case hcond =>
        refine ⟨rfl, by simp, ?_, ?_⟩
        · rw [byteAt_cons_zero]
          exact isHexByte_hexDigitByte (by omega)
        · rw [byteAt_cons_succ, byteAt_cons_zero]
          exact isHexByte_hexDigitByte (by omega)
      rw [byteAt_cons_zero, byteAt_cons_succ, byteAt_cons_zero,
          hexVal_hexDigitByte (by omega), hexVal_hexDigitByte (by omega)]
      have harith : b / 16 * 16 + b % 16 = b := by omega
      rw [harith]
      rfl

theorem percentDecode_encodeBytes {us : List Nat} (h : ∀ b ∈ us, b < 256) :
    percentDecode
      ((encodeBytes us).map fun x => if x = 0x2B then 0x20 else x) = us := by
  induction us with
  | nil => rw [encodeBytes, List.map_nil, percentDecode]
  | cons b rest ih =>
    rw [encodeBytes, List.map_append,
        percentDecode_encode_prefix (h b (List.mem_cons_self _ _)),
        ih (fun x hx => h x (List.mem_cons_of_mem _ hx))]

theorem utf8Decode_encode_prefix (c : Char) (tail : List Nat) :
    utf8Decode (utf8EncodeChar c ++ tail) = c :: utf8Decode tail := by
  have hv : c.toNat.isValidChar := c.valid
  have h4 : c.toNat < 0x110000 := by rcases hv with h | h <;> omega
  unfold utf8EncodeChar
  simp only []
  by_cases h1 : c.toNat < 0x80
  · rw [if_pos h1]
    simp only [List.cons_append, List.nil_append]
    rw [utf8Decode, if_pos h1, charOfCode_toNat]
  · rw [if_neg h1]
    by_cases h2 : c.toNat < 0x800
    · rw [if_pos h2]
      simp only [List.cons_append, List.nil_append]
      rw [utf8Decode, if_neg (by omega)]
      rw [if_pos ?hc2]
      case hc2 =>
        refine ⟨by omega, by omega, ?_⟩
        rw [contAt_cons_zero]
        unfold contByte
        simp only [Bool.and_eq_true, decide_eq_true_eq]
        omega
      rw [byteAt_cons_zero]
      rw [show ((0x80 + c.toNat % 64) :: tail).drop 1 = tail from rfl]
      rw [show (0xC0 + c.toNat / 64 - 0xC0) * 64 +
            contVal (0x80 + c.toNat % 64) = c.toNat by unfold contVal; omega]
      rw [charOfCode_toNat]
    · rw [if_neg h2]
      by_cases h3 : c.toNat < 0x10000
      · rw [if_pos h3]
        simp only [List.cons_append, List.nil_append]
        rw [utf8Decode, if_neg (by omega)]
        rw [if_neg (fun hcon => by omega)]
        rw [if_pos ?hc3]
        case hc3 =>
          refine ⟨by omega, by omega, ?_, ?_⟩
          · rw [contAt_cons_zero]
            unfold contByte
            simp only [Bool.and_eq_true, decide_eq_true_eq]
            omega
          · rw [contAt_cons_succ, contAt_cons_zero]
            unfold contByte
            simp only [Bool.and_eq_true, decide_eq_true_eq]
            omega
        simp only []
        rw [byteAt_cons_zero, byteAt_cons_succ, byteAt_cons_zero]
        rw [show ((0x80 + c.toNat / 64 % 64) :: (0x80 + c.toNat % 64) ::
              tail).drop 2 = tail from rfl]
        rw [show (0xE0 + c.toNat / 4096 - 0xE0) * 4096 +
              contVal (0x80 + c.toNat / 64 % 64) * 64 +
              contVal (0x80 + c.toNat % 64) = c.toNat by
            unfold contVal; omega]
        rw [if_pos (by omega), charOfCode_toNat]
      · rw [if_neg h3]
        simp only [List.cons_append, List.nil_append]
        rw [utf8Decode, if_neg (by omega)]
        rw [if_neg (fun hcon => by omega)]
        rw [if_neg (fun hcon => by omega)]
        rw [if_pos ?hc4]
        case hc4 =>
          refine ⟨by omega, by omega, ?_, ?_, ?_⟩
          · rw [contAt_cons_zero]
            unfold contByte
            simp only [Bool.and_eq_true, decide_eq_true_eq]
            omega
          · rw [contAt_cons_succ, contAt_cons_zero]
            unfold contByte
            simp only [Bool.and_eq_true, decide_eq_true_eq]
            omega
          · rw [contAt_cons_succ, contAt_cons_succ, contAt_cons_zero]
            unfold contByte
            simp only [Bool.and_eq_true, decide_eq_true_eq]
            omega
        simp only []
        rw [byteAt_cons_zero, byteAt_cons_succ, byteAt_cons_zero,
            byteAt_cons_succ, byteAt_cons_succ, byteAt_cons_zero]
        rw [show ((0x80 + c.toNat / 4096 % 64) :: (0x80 + c.toNat / 64 % 64)
              :: (0x80 + c.toNat % 64) :: tail).drop 3 = tail from rfl]
        rw [show (0xF0 + c.toNat / 262144 - 0xF0) * 262144 +
              contVal (0x80 + c.toNat / 4096 % 64) * 4096 +
              contVal (0x80 + c.toNat / 64 % 64) * 64 +
              contVal (0x80 + c.toNat % 64) = c.toNat by
            unfold contVal; omega]
        rw [if_pos (by omega), charOfCode_toNat]

theorem utf8Decode_utf8List (cs : List Char) :
    utf8Decode (utf8List cs) = cs := by
  induction cs with
  | nil => rw [utf8List, utf8Decode]
  | cons c rest ih => rw [utf8List, utf8Decode_encode_prefix, ih]

theorem utf8List_lt256 (cs : List Char) : ∀ b ∈ utf8List cs, b < 256 := by
  induction cs with
  | nil => intro b hb; rw [utf8List] at hb; cases hb
  | cons c rest ih =>
    intro b hb
    rw [utf8List] at hb
    rcases List.mem_append.mp hb with h | h
    · exact utf8EncodeChar_lt256 c b h
    · exact ih b h

theorem parsePart_serializeStr (s : String) :
    parsePart (serializeStr s) = s := by
  unfold parsePart serializeStr
  rw [percentDecode_encodeBytes (utf8List_lt256 s.data), utf8Decode_utf8List]

theorem mem_encodeBytes {us : List Nat} {b : Nat} (h : b ∈ encodeBytes us) :
    ∃ u ∈ us, b ∈ percentEncodeByte u := by
  induction us with
  | nil => rw [encodeBytes] at h; cases h
  | cons u rest ih =>
    rw [encodeBytes] at h
    rcases List.mem_append.mp h with h0 | h0
    · exact ⟨u, List.mem_cons_self _ _, h0⟩
    · obtain ⟨u2, hu2, hb2⟩ := ih h0
      exact ⟨u2, List.mem_cons_of_mem _ hu2, hb2⟩

theorem serializeStr_facts (s : String) :
    ∀ b ∈ serializeStr s, b < 0x80 ∧ b ≠ 0x26 ∧ b ≠ 0x3D ∧ b ≠ 0x3F := by
  intro b hb
  obtain ⟨u, hu, hbu⟩ := mem_encodeBytes hb
  exact percentEncodeByte_facts (utf8List_lt256 s.data u hu) b hbu

theorem pairBytes_facts (r : Row) :
    ∀ b ∈ pairBytes r, b < 0x80 ∧ b ≠ 0x3F := by
  intro b hb
  unfold pairBytes at hb
  rcases List.mem_append.mp hb with h0 | h0
  · have := serializeStr_facts r.key b h0
    exact ⟨this.1, this.2.2.2⟩
  · rcases List.mem_cons.mp h0 with rfl | h1
    · exact ⟨by omega, by omega⟩
    · have := serializeStr_facts r.value b h1
      exact ⟨this.1, this.2.2.2⟩

theorem not_amp_mem_pairBytes (r : Row) : ¬ 0x26 ∈ pairBytes r := by
  intro h
  unfold pairBytes at h
  rcases List.mem_append.mp h with h0 | h0
  · exact (serializeStr_facts r.key _ h0).2.1 rfl
  · rcases List.mem_cons.mp h0 with he | h1
    · omega
    · exact (serializeStr_facts r.value _ h1).2.1 rfl

theorem qsBytes_one (r : Row) : qsBytes [r] = pairBytes r := rfl

theorem qsBytes_cons_cons (r r2 : Row) (rest : List Row) :
    qsBytes (r :: r2 :: rest) = pairBytes r ++ 0x26 :: qsBytes (r2 :: rest) :=
  rfl

theorem qsBytes_facts (l : List Row) :
    ∀ b ∈ qsBytes l, b < 0x80 ∧ b ≠ 0x3F := by
  induction l with
  | nil => intro b hb; cases hb
  | cons r rest ih =>
    intro b hb
    cases rest with
    | nil => exact pairBytes_facts r b hb
    | cons r2 rest2 =>
      rw [qsBytes_cons_cons] at hb
      rcases List.mem_append.mp hb with h0 | h0
      · exact pairBytes_facts r b h0
      · rcases List.mem_cons.mp h0 with rfl | h1
        · exact ⟨by omega, by omega⟩
        · exact ih b h1

theorem splitFirstEq_append {na : List Nat} (h : ¬ 0x3D ∈ na)
    (vb : List Nat) : splitFirstEq (na ++ 0x3D :: vb) = (na, vb) := by
  induction na with
  | nil => rw [List.nil_append, splitFirstEq, if_pos rfl]
  | cons b rest ih =>
    rw [List.cons_append, splitFirstEq,
        if_neg (fun he => h (by rw [he]; exact List.mem_cons_self _ _)),
        ih (fun hm => h (List.mem_cons_of_mem _ hm))]

theorem splitOnByte_cons (sep b : Nat) (rest : List Nat) :
    splitOnByte sep (b :: rest) =
      match splitOnByte sep rest with
      | [] => [[]]
      | s :: ss => if b = sep then [] :: s :: ss else (b :: s) :: ss := rfl

theorem splitOnByte_ne_nil (sep : Nat) (l : List Nat) :
    splitOnByte sep l ≠ [] := by
  cases l with
  | nil => rw [splitOnByte]; simp
  | cons b rest =>
    rw [splitOnByte_cons]
    rcases hs : splitOnByte sep rest with _ | ⟨s, ss⟩
    · simp
    · show (if b = sep then [] :: s :: ss else (b :: s) :: ss) ≠ []
      by_cases hsep : b = sep
      · rw [if_pos hsep]; simp
      · rw [if_neg hsep]; simp

theorem splitOnByte_no_sep {sep : Nat} {l : List Nat} (h : ¬ sep ∈ l) :
    splitOnByte sep l = [l] := by
  induction l with
  | nil => rfl
  | cons b rest ih =>
    rw [splitOnByte_cons, ih (fun hm => h (List.mem_cons_of_mem _ hm))]
    show (if b = sep then [] :: rest :: [] else (b :: rest) :: []) = [b :: rest]
    rw [if_neg (fun he => h (by rw [← he]; exact List.mem_cons_self _ _))]

theorem splitOnByte_append {sep : Nat} {xs : List Nat} (h : ¬ sep ∈ xs)
    (ys : List Nat) :
    splitOnByte sep (xs ++ sep :: ys) = xs :: splitOnByte sep ys := by
  induction xs with
  | nil =>
    rw [List.nil_append, splitOnByte_cons]
    rcases hs : splitOnByte sep ys with _ | ⟨s, ss⟩
    · exact absurd hs (splitOnByte_ne_nil sep ys)
    · show (if sep = sep then [] :: s :: ss else (sep :: s) :: ss) =
        [] :: s :: ss
      rw [if_pos rfl]
  | cons x rest ih =>
    rw [List.cons_append, splitOnByte_cons,
        ih (fun hm => h (List.mem_cons_of_mem _ hm))]
    show (if x = sep then [] :: rest :: splitOnByte sep ys
          else (x :: rest) :: splitOnByte sep ys) =
        (x :: rest) :: splitOnByte sep ys
    rw [if_neg (fun he => h (by rw [← he]; exact List.mem_cons_self _ _))]

theorem splitOnByte_qsBytes {l : List Row} (h : l ≠ []) :
    splitOnByte 0x26 (qsBytes l) = l.map pairBytes := by
  induction l with
  | nil => exact absurd rfl h
  | cons r rest ih =>
    cases rest with
    | nil =>
      rw [qsBytes_one, splitOnByte_no_sep (not_amp_mem_pairBytes r)]
      rfl
    | cons r2 rest2 =>
      rw [qsBytes_cons_cons, splitOnByte_append (not_amp_mem_pairBytes r),
          ih (by simp)]
      rfl

theorem pairBytes_ne_nil (r : Row) : (pairBytes r).isEmpty = false := by
  unfold pairBytes
  rcases hk : serializeStr r.key with _ | ⟨b, rest⟩ <;> simp

theorem parse_pairBytes (r : Row) :
    (if (pairBytes r).isEmpty then none
     else
       let nv := splitFirstEq (pairBytes r)
       some (⟨parsePart nv.1, parsePart nv.2⟩ : Row)) = some r := by
  rw [pairBytes_ne_nil]
  simp only [Bool.false_eq_true, if_false]
  unfold pairBytes
  rw [splitFirstEq_append (fun hm => (serializeStr_facts r.key _ hm).2.2.1 rfl)]
  simp only []
  rw [parsePart_serializeStr, parsePart_serializeStr]

theorem urlencodedParse_qsBytes {l : List Row} (h : l ≠ []) :
    urlencodedParse (qsBytes l) = l := by
  unfold urlencodedParse
  rw [splitOnByte_qsBytes h, List.filterMap_map]
  have hfun : ∀ r : Row,
      (fun seg : List Nat =>
        if seg.isEmpty then none
        else
          let nv := splitFirstEq seg
          some (⟨parsePart nv.1, parsePart nv.2⟩ : Row)) (pairBytes r) =
        some r := fun r => parse_pairBytes r
  calc l.filterMap _ = l.filterMap some := by
        apply List.filterMap_congr
        intro r _
        exact hfun r
    _ = l := List.filterMap_some l

theorem toNat_ofNat_valid {b : Nat} (h : b.isValidChar) :
    (Char.ofNat b).toNat = b := by
  have h2 := toNat_charOfCode h
  unfold charOfCode at h2
  rw [if_pos h] at h2
  exact h2

theorem utf8List_map_ofNat {bs : List Nat} (h : ∀ b ∈ bs, b < 0x80) :
    utf8List (bs.map Char.ofNat) = bs := by
  induction bs with
  | nil => rfl
  | cons b rest ih =>
    rw [List.map_cons, utf8List, utf8EncodeChar]
    have hb := h b (List.mem_cons_self _ _)
    have hvalid : b.isValidChar := Or.inl (by omega)
    rw [toNat_ofNat_valid hvalid]
    rw [if_pos (by omega), ih (fun x hx => h x (List.mem_cons_of_mem _ hx))]
    rfl

theorem contains_eq_false_of_not_mem {l : List Char} {c : Char}
    (h : ¬ c ∈ l) : l.contains c = false := by
  simpa using h

theorem contains_eq_true_of_mem {l : List Char} {c : Char}
    (h : c ∈ l) : l.contains c = true := by
  simpa using h

theorem eq_byte_mem_pairBytes (r : Row) : (0x3D : Nat) ∈ pairBytes r := by
  unfold pairBytes
  exact List.mem_append_right _ (List.mem_cons_self _ _)

theorem eq_byte_mem_qsBytes (r : Row) (rest : List Row) :
    (0x3D : Nat) ∈ qsBytes (r :: rest) := by
  cases rest with
  | nil => rw [qsBytes_one]; exact eq_byte_mem_pairBytes r
  | cons r2 rest2 =>
    rw [qsBytes_cons_cons]
    exact List.mem_append_left _ (eq_byte_mem_pairBytes r)

/-- C1: parsing the derived query string of any row list with
`parseUrlToData` (array form) recovers exactly the pair list that
`getParams()` returns — the empty mapping comes back as the JSON text `[]`,
every non-empty mapping comes back as the identical pair sequence, so the
key-to-value mappings agree (here even on the nose, with no encoding
residue). -/
theorem claim_C1 (rows : List Row) :
    parseUrlToData (derivedQuery rows) true =
      if getParams rows = [] then JsStrOrRows.str "[]"
      else JsStrOrRows.rows (getParams rows) := by
  rw [getParams_eq]
  by_cases hnil : getSearchParamsOf rows = []
  · rw [if_pos hnil]
    have hq : derivedQuery rows = "" := by
      unfold derivedQuery uspToString
      rw [hnil]
      rfl
    rw [hq]
    rfl
  · rw [if_neg hnil]
    have hascii : ∀ b ∈ qsBytes (getSearchParamsOf rows), b < 0x80 :=
      fun b hb => (qsBytes_facts _ b hb).1
    have hq : derivedQuery rows =
        ⟨(qsBytes (getSearchParamsOf rows)).map Char.ofNat⟩ := rfl
    rw [hq]
    unfold parseUrlToData
    have hdata :
        (⟨(qsBytes (getSearchParamsOf rows)).map Char.ofNat⟩ : String).data =
          (qsBytes (getSearchParamsOf rows)).map Char.ofNat := rfl
    rw [hdata]
    have hnoq : ¬ '?' ∈ (qsBytes (getSearchParamsOf rows)).map Char.ofNat := by
      intro hmem
      obtain ⟨b, hb, hcb⟩ := List.mem_map.mp hmem
      have hbv : b.isValidChar := Or.inl (by have := hascii b hb; omega)
      have : b = Char.toNat '?' := by
        rw [← hcb, toNat_ofNat_valid hbv]
      rw [show Char.toNat '?' = 0x3F from rfl] at this
      exact (qsBytes_facts _ b hb).2 this
    rw [if_neg (by rw [contains_eq_false_of_not_mem hnoq]; simp)]
    have heqm : '=' ∈ (qsBytes (getSearchParamsOf rows)).map Char.ofNat := by
      rcases hlist : getSearchParamsOf rows with _ | ⟨r, rest⟩
      · exact absurd hlist hnil
      · exact List.mem_map.mpr ⟨0x3D, eq_byte_mem_qsBytes r rest,
          by rw [show Char.ofNat 0x3D = '=' from rfl]⟩
    rw [if_pos (by rw [contains_eq_true_of_mem heqm])]
    rw [if_pos rfl]
    unfold newURLSearchParams
    simp only []
    rw [if_pos (show ('?' :: (qsBytes (getSearchParamsOf rows)).map
        Char.ofNat).head? = some '?' from rfl)]
    rw [List.tail_cons]
    rw [utf8List_map_ofNat hascii, urlencodedParse_qsBytes hnil]
